import Mathlib

/-!
Verification of the Nightcaste event-dispatch core.

This file gives a shallow embedding of the two verified pieces of the
repository and proves the specified properties about them:

* `nightcaste/events.py` — `EventManager` (queue, listener registry,
  `process_events` / `process_event`), `BaseEvent` and the `Event`
  subclasses;
* `nightcaste/behaviour.py` — `BehaviourManager` (behaviour registry,
  the per-round `update` loop, `add_comp_behaviour_from_name`) and
  `InputBehaviour`.

Python dictionaries with string keys are modelled as association lists
whose key set is kept duplicate-free by the update operation; the FIFO
`Queue.Queue` is modelled as a list (head = front of the queue).  Event
processors ("handlers") are identified by natural numbers and their
behaviour is a parameter `hsem : HSem`: on each invocation a handler
either returns normally, having enqueued a list of new events through
the manager, or raises an exception.  The `while not empty` loop of
`process_events` is given fuel; running out of fuel returns `none`
(the Python loop would still be running), so a `some` result is exactly
a terminating call.
-/

namespace Nightcaste

/-- Association-list model of a Python `dict` with string keys. -/
abbrev Dict (α : Type) := List (String × α)

/-- `d[k]` lookup: the value at the first (and, for lists built by
`dictSet`, only) occurrence of the key `k`. -/
def dictLookup {α : Type} (d : Dict α) (k : String) : Option α :=
  match d with
  | [] => none
  | (k', v) :: rest => if k' = k then some v else dictLookup rest k

/-- `d.update({k: v})`: replace the value stored at `k` in place, or
append a fresh entry when `k` is absent. -/
def dictSet {α : Type} (d : Dict α) (k : String) (v : α) : Dict α :=
  match d with
  | [] => [(k, v)]
  | (k', v') :: rest =>
      if k' = k then (k, v) :: rest else (k', v') :: dictSet rest k v

/-- Events of `nightcaste/events.py`.  `base identifier data` is a
`BaseEvent(identifier, data)` as constructed by `EventManager.throw`;
`plain className fields` is an instance of one of the `Event`
subclasses (`MoveAction`, `KeyPressed`, `MapChange`, ...), whose
dispatch tag is its class name.  Field values are modelled as
integers. -/
inductive Event where
  | base (identifier : String) (data : List (String × Int))
  | plain (className : String) (fields : List (String × Int))
deriving DecidableEq

/-- `BaseEvent.type` / `Event.type`: both return
`self.__class__.__name__`.  For a `BaseEvent` this is the string
"BaseEvent" whatever identifier was stored; for an `Event` subclass it
is the subclass name. -/
def Event.type : Event → String
  | .base _ _ => "BaseEvent"
  | .plain c _ => c

/-- State of an `EventManager`: the FIFO event queue (`Queue.Queue`,
head = front) and the listener registry
`{event_type: [EventProcessor]}`.  Processors are identified by
naturals. -/
structure EventManager where
  events : List Event
  listeners : Dict (List Nat)
deriving DecidableEq

/-- `EventManager.register_listener`: append the processor to the list
for `event_type`, creating the list when the type is not yet
present. -/
def register_listener (em : EventManager) (event_type : String)
    (event_processor : Nat) : EventManager :=
  match dictLookup em.listeners event_type with
  | some l =>
      { em with
        listeners := dictSet em.listeners event_type (l ++ [event_processor]) }
  | none =>
      { em with
        listeners := dictSet em.listeners event_type [event_processor] }

/-- `EventManager.remove_listener`: when the type has a list, the
Python `list.remove` deletes the first occurrence of the processor and its
`ValueError` (processor absent) is caught and ignored; `List.erase`
has exactly these semantics.  When the type has no list nothing
happens. -/
def remove_listener (em : EventManager) (event_type : String)
    (event_processor : Nat) : EventManager :=
  match dictLookup em.listeners event_type with
  | some l =>
      { em with
        listeners := dictSet em.listeners event_type (l.erase event_processor) }
  | none => em

/-- `EventManager.enqueue_event`: put the event at the tail of the
queue (the `rounds` parameter of the source is unused there). -/
def enqueue_event (em : EventManager) (event : Event) : EventManager :=
  { em with events := em.events ++ [event] }

/-- `EventManager.throw`: enqueue `BaseEvent(eventIdentifier, data)`. -/
def throw (em : EventManager) (eventIdentifier : String)
    (data : List (String × Int)) : EventManager :=
  enqueue_event em (Event.base eventIdentifier data)

/-- One invocation of the processor method `handle_event(event, round)`:
either it returns normally after enqueuing `newEvents` through the
manager (in this order), or it raises an exception. -/
inductive HandlerAct where
  | ok (newEvents : List Event)
  | raise
deriving DecidableEq

/-- Semantics of the registered processors: what processor `h` does
when handling `event` in round `round`. -/
abbrev HSem := Nat → Event → Int → HandlerAct

/-- Outcome of `process_event`: the manager state reached, the
invocations `(processor, event)` that began, in order, and whether an
exception escaped. -/
structure PEResult where
  em : EventManager
  trace : List (Nat × Event)
  raised : Bool
deriving DecidableEq

/-- The `for processor in self.listeners[event.type()]` loop of
`process_event`: invoke each processor in list order; a processor that
returns normally first appends its new events to the queue; a
processor that raises aborts the loop with the exception
propagating. -/
def runHandlers (hsem : HSem) (round : Int) (event : Event) :
    List Nat → EventManager → PEResult
  | [], em => ⟨em, [], false⟩
  | h :: hs, em =>
      match hsem h event round with
      | .raise => ⟨em, [(h, event)], true⟩
      | .ok newEvents =>
          let r := runHandlers hsem round event hs
            { em with events := em.events ++ newEvents }
          ⟨r.em, (h, event) :: r.trace, r.raised⟩

/-- `EventManager.process_event`: delegate the event to every
processor registered for `event.type()`; when no list is registered
for that type the event is dropped silently. -/
def process_event (hsem : HSem) (em : EventManager) (event : Event)
    (round : Int) : PEResult :=
  match dictLookup em.listeners event.type with
  | some l => runHandlers hsem round event l em
  | none => ⟨em, [], false⟩

/-- Outcome of `process_events`: final manager state, all invocations
that began (in order), whether an exception escaped, and the value of
the `processed_events` counter. -/
structure PRResult where
  em : EventManager
  trace : List (Nat × Event)
  raised : Bool
  count : Nat
deriving DecidableEq

/-- The `while not self.events.empty()` loop of `process_events`,
with fuel: dequeue the front event (`get_nowait`), process it, and
increment the counter; an exception from `process_event` propagates,
so the counter stops and the remaining queue is whatever it was at
the point of the fault.  `none` means the fuel ran out with the queue
still non-empty (the Python loop has not terminated yet). -/
def processLoop (hsem : HSem) (round : Int) :
    Nat → EventManager → Nat → List (Nat × Event) → Option PRResult
  | fuel, em, count, acc =>
      match em.events with
      | [] => some ⟨em, acc, false, count⟩
      | e :: rest =>
          match fuel with
          | 0 => none
          | fuel' + 1 =>
              let pe := process_event hsem { em with events := rest } e round
              if pe.raised then some ⟨pe.em, acc ++ pe.trace, true, count⟩
              else processLoop hsem round fuel' pe.em (count + 1) (acc ++ pe.trace)

/-- `EventManager.process_events(round)` (called `process_round` in the spec). -/
def process_events (hsem : HSem) (fuel : Nat) (em : EventManager)
    (round : Int) : Option PRResult :=
  processLoop hsem round fuel em 0 []

/-- State of a `BehaviourManager`: the registry
`{component_type: behaviour}`.  The behaviour representation `β` is a
parameter (an opaque identity for registry claims, a class name for
configuration claims). -/
structure BehaviourManager (β : Type) where
  behaviours : Dict β
deriving DecidableEq

/-- `BehaviourManager.add_component_behaviour`:
`self.behaviours.update({component_type: behaviour})`. -/
def add_component_behaviour {β : Type} (bm : BehaviourManager β)
    (component_type : String) (behaviour : β) : BehaviourManager β :=
  ⟨dictSet bm.behaviours component_type behaviour⟩

/-- One invocation `behaviour.update(round, delta_time)` performed by
the update loop, together with the `entity` and `component` fields the
loop stashed on the behaviour object just before the call. -/
structure BInv (β : Type) where
  component_type : String
  behaviour : β
  entity : Int
  component : Int
  round : Int
  delta_time : Int
deriving DecidableEq

/-- `BehaviourManager.update(round, delta_time)` (called `update_all`
in the spec): for every `(component_type, behaviour)` pair of the
registry, fetch `entity_manager.get_all_of_type(component_type)` — a
mapping from entity to component, modelled as a list of pairs — and
invoke the behaviour once per pair.  The result is the list of
invocations performed, in order. -/
def BehaviourManager.update {β : Type} (bm : BehaviourManager β)
    (get_all_of_type : String → List (Int × Int)) (round delta_time : Int) :
    List (BInv β) :=
  bm.behaviours.flatMap fun p =>
    (get_all_of_type p.1).map fun q => ⟨p.1, p.2, q.1, q.2, round, delta_time⟩

/-- The classes defined by the module `nightcaste.behaviour` that
`getattr` can resolve and that are constructible as
`cls(event_manager, entity_manager)`. -/
def behaviourModuleClassNames : List String :=
  ["BehaviourManager", "EntityComponentBehaviour", "InputBehaviour"]

/-- Exceptions raised by `add_comp_behaviour_from_name`:
`getattr(module, name)` raises `AttributeError` when the module has no
attribute `name`. -/
inductive PyError where
  | attributeError (missing : String)
deriving DecidableEq

/-- `BehaviourManager.add_comp_behaviour_from_name`: resolve the name
against the module `nightcaste.behaviour` with `getattr`, construct
the class with `(event_manager, entity_manager)` and register the
instance; an unresolvable name raises `AttributeError` before the
registry is touched.  The registered behaviour is represented by its
class name. -/
def add_comp_behaviour_from_name (bm : BehaviourManager String)
    (component_type behaviour_name : String) :
    Except PyError (BehaviourManager String) :=
  if behaviour_name ∈ behaviourModuleClassNames then
    Except.ok (add_component_behaviour bm component_type behaviour_name)
  else
    Except.error (PyError.attributeError behaviour_name)

/-- The logical direction keys polled by `InputBehaviour.update`
through the external `input` module. -/
inductive Key where
  | k_left
  | k_right
  | k_down
  | k_up
deriving DecidableEq

/-- `InputBehaviour.move(dx, dy)`: throw a `MoveAction` identifier
with the stashed entity and the distances. -/
def InputBehaviour.move (em : EventManager) (entity : Int) (dx dy : Int) :
    EventManager :=
  throw em "MoveAction" [("entity", entity), ("dx", dx), ("dy", dy)]

/-- `InputBehaviour.update(round, delta_time)`: poll the four
direction keys in the fixed `if/elif` order left, right, down, up and
throw at most one `MoveAction`.  `is_pressed` is the external input
capability. -/
def InputBehaviour.update (is_pressed : Key → Bool) (em : EventManager)
    (entity : Int) : EventManager :=
  if is_pressed .k_left then InputBehaviour.move em entity (-1) 0
  else if is_pressed .k_right then InputBehaviour.move em entity 1 0
  else if is_pressed .k_down then InputBehaviour.move em entity 0 1
  else if is_pressed .k_up then InputBehaviour.move em entity 0 (-1)
  else em

/-! Dictionary lemmas -/

theorem dictLookup_dictSet_self {α : Type} (d : Dict α) (k : String) (v : α) :
    dictLookup (dictSet d k v) k = some v := by
  induction d with
  | nil => simp [dictSet, dictLookup]
  | cons hd tl ih =>
      obtain ⟨k', v'⟩ := hd
      by_cases h : k' = k <;> simp [dictSet, dictLookup, h, ih]

theorem dictLookup_dictSet_ne {α : Type} (d : Dict α) (k k' : String) (v : α)
    (h : k' ≠ k) : dictLookup (dictSet d k v) k' = dictLookup d k' := by
  induction d with
  | nil => simp [dictSet, dictLookup, Ne.symm h]
  | cons hd tl ih =>
      obtain ⟨k'', v''⟩ := hd
      by_cases hk : k'' = k
      · subst hk
        simp [dictSet, dictLookup, Ne.symm h]
      · by_cases hk' : k'' = k' <;> simp [dictSet, dictLookup, hk, hk', ih, h]

theorem dictSet_of_lookup_eq {α : Type} (d : Dict α) (k : String) (v : α)
    (h : dictLookup d k = some v) : dictSet d k v = d := by
  induction d with
  | nil => simp [dictLookup] at h
  | cons hd tl ih =>
      obtain ⟨k', v'⟩ := hd
      by_cases hk : k' = k
      · subst hk
        simp [dictLookup] at h
        simp [dictSet, h]
      · simp [dictLookup, hk] at h
        simp [dictSet, hk, ih h]

theorem mem_of_dictLookup_eq {α : Type} {d : Dict α} {k : String} {v : α}
    (h : dictLookup d k = some v) : (k, v) ∈ d := by
  induction d with
  | nil => simp [dictLookup] at h
  | cons hd tl ih =>
      obtain ⟨k', v'⟩ := hd
      by_cases hk : k' = k
      · subst hk
        simp [dictLookup] at h
        simp [h]
      · simp [dictLookup, hk] at h
        simp [ih h]

theorem dictLookup_eq_of_mem {α : Type} {d : Dict α} :
    (d.map Prod.fst).Nodup → ∀ {k : String} {v : α}, (k, v) ∈ d →
      dictLookup d k = some v := by
  induction d with
  | nil => intro _ k v h; simp at h
  | cons hd tl ih =>
      obtain ⟨k', v'⟩ := hd
      intro hnd k v h
      rw [List.map_cons, List.nodup_cons] at hnd
      rcases List.mem_cons.mp h with h1 | h2
      · rw [Prod.mk.injEq] at h1
        obtain ⟨hk, hv⟩ := h1
        subst hk
        subst hv
        simp [dictLookup]
      · have hk : k' ≠ k := by
          intro hkk
          subst hkk
          have hm : (k', v).fst ∈ tl.map Prod.fst :=
            List.mem_map_of_mem Prod.fst h2
          exact hnd.1 hm
        simp [dictLookup, hk]
        exact ih hnd.2 h2

theorem mem_dictSet {α : Type} {d : Dict α} {k x : String} {v w : α}
    (h : (x, w) ∈ dictSet d k v) :
    (x = k ∧ w = v) ∨ (x, w) ∈ d := by
  induction d with
  | nil =>
      simp [dictSet] at h
      exact Or.inl h
  | cons hd tl ih =>
      obtain ⟨k', v'⟩ := hd
      by_cases hk : k' = k
      · subst hk
        rw [show dictSet ((k', v') :: tl) k' v = (k', v) :: tl from
            by simp [dictSet]] at h
        rcases List.mem_cons.mp h with h1 | h2
        · rw [Prod.mk.injEq] at h1
          exact Or.inl h1
        · exact Or.inr (List.mem_cons_of_mem _ h2)
      · rw [show dictSet ((k', v') :: tl) k v = (k', v') :: dictSet tl k v from
            by simp [dictSet, hk]] at h
        rcases List.mem_cons.mp h with h1 | h2
        · exact Or.inr (List.mem_cons.mpr (Or.inl h1))
        · rcases ih h2 with h3 | h4
          · exact Or.inl h3
          · exact Or.inr (List.mem_cons_of_mem _ h4)

theorem mem_keys_dictSet {α : Type} {d : Dict α} {k x : String} {v : α}
    (h : x ∈ (dictSet d k v).map Prod.fst) :
    x = k ∨ x ∈ d.map Prod.fst := by
  rcases List.mem_map.mp h with ⟨p, hp, hfst⟩
  obtain ⟨px, pw⟩ := p
  cases hfst
  rcases mem_dictSet hp with ⟨h1, _⟩ | h2
  · exact Or.inl h1
  · exact Or.inr (List.mem_map_of_mem Prod.fst h2)

theorem nodup_keys_dictSet {α : Type} (d : Dict α) (k : String) (v : α)
    (h : (d.map Prod.fst).Nodup) :
    ((dictSet d k v).map Prod.fst).Nodup := by
  induction d with
  | nil => simp [dictSet]
  | cons hd tl ih =>
      obtain ⟨k', v'⟩ := hd
      rw [List.map_cons, List.nodup_cons] at h
      by_cases hk : k' = k
      · subst hk
        rw [show dictSet ((k', v') :: tl) k' v = (k', v) :: tl from
            by simp [dictSet]]
        rw [List.map_cons, List.nodup_cons]
        exact h
      · rw [show dictSet ((k', v') :: tl) k v = (k', v') :: dictSet tl k v from
            by simp [dictSet, hk]]
        rw [List.map_cons, List.nodup_cons]
        refine ⟨fun hmem => ?_, ih h.2⟩
        rcases mem_keys_dictSet hmem with h1 | h2
        · exact hk h1
        · exact h.1 h2

/-! Handler-loop lemmas -/

theorem runHandlers_ok_nil (hsem : HSem) (round : Int) (event : Event)
    (hok : ∀ h e r, hsem h e r = HandlerAct.ok []) :
    ∀ (l : List Nat) (em : EventManager),
      runHandlers hsem round event l em =
        ⟨em, l.map (fun h => (h, event)), false⟩ := by
  intro l
  induction l with
  | nil => intro em; rfl
  | cons h hs ih =>
      intro em
      simp [runHandlers, hok h event round, ih]

theorem runHandlers_trace_of_no_raise (hsem : HSem) (round : Int)
    (event : Event) :
    ∀ (l : List Nat) (em : EventManager),
      (∀ h, h ∈ l → hsem h event round ≠ HandlerAct.raise) →
      (runHandlers hsem round event l em).trace =
        l.map (fun h => (h, event)) := by
  intro l
  induction l with
  | nil => intro em _; rfl
  | cons h hs ih =>
      intro em hnr
      cases hact : hsem h event round with
      | raise => exact absurd hact (hnr h (by simp))
      | ok newEvents =>
          simp [runHandlers, hact, ih _ (fun h' hm => hnr h' (by simp [hm]))]

theorem runHandlers_trace_snd (hsem : HSem) (round : Int) (event : Event) :
    ∀ (l : List Nat) (em : EventManager),
      ∀ p ∈ (runHandlers hsem round event l em).trace, p.2 = event := by
  intro l
  induction l with
  | nil => intro em p hp; simp [runHandlers] at hp
  | cons h hs ih =>
      intro em p hp
      cases hact : hsem h event round with
      | raise =>
          simp [runHandlers, hact] at hp
          simp [hp]
      | ok newEvents =>
          simp only [runHandlers, hact] at hp
          rcases List.mem_cons.mp hp with h1 | h2
          · simp [h1]
          · exact ih _ p h2

theorem runHandlers_trace_fst_mem (hsem : HSem) (round : Int) (event : Event) :
    ∀ (l : List Nat) (em : EventManager),
      ∀ p ∈ (runHandlers hsem round event l em).trace, p.1 ∈ l := by
  intro l
  induction l with
  | nil => intro em p hp; simp [runHandlers] at hp
  | cons h hs ih =>
      intro em p hp
      cases hact : hsem h event round with
      | raise =>
          simp [runHandlers, hact] at hp
          simp [hp]
      | ok newEvents =>
          simp only [runHandlers, hact] at hp
          rcases List.mem_cons.mp hp with h1 | h2
          · simp [h1]
          · exact List.mem_cons_of_mem _ (ih _ p h2)

theorem process_event_trace_snd (hsem : HSem) (em : EventManager)
    (event : Event) (round : Int) :
    ∀ p ∈ (process_event hsem em event round).trace, p.2 = event := by
  intro p hp
  unfold process_event at hp
  cases hl : dictLookup em.listeners event.type with
  | none => simp [hl] at hp
  | some l =>
      rw [hl] at hp
      exact runHandlers_trace_snd hsem round event l em p hp

theorem process_event_trace_fst_mem (hsem : HSem) (em : EventManager)
    (event : Event) (round : Int) :
    ∀ p ∈ (process_event hsem em event round).trace,
      p.1 ∈ (dictLookup em.listeners event.type).getD [] := by
  intro p hp
  unfold process_event at hp
  cases hl : dictLookup em.listeners event.type with
  | none => simp [hl] at hp
  | some l =>
      rw [hl] at hp
      simpa using runHandlers_trace_fst_mem hsem round event l em p hp

/-! Drain-loop lemmas -/

theorem processLoop_eq_nil (hsem : HSem) (round : Int) (fuel : Nat)
    (L : Dict (List Nat)) (count : Nat) (acc : List (Nat × Event)) :
    processLoop hsem round fuel ⟨[], L⟩ count acc =
      some ⟨⟨[], L⟩, acc, false, count⟩ := by
  cases fuel <;> rfl

theorem processLoop_eq_zero (hsem : HSem) (round : Int) (e : Event)
    (rest : List Event) (L : Dict (List Nat)) (count : Nat)
    (acc : List (Nat × Event)) :
    processLoop hsem round 0 ⟨e :: rest, L⟩ count acc = none := rfl

theorem processLoop_eq_succ (hsem : HSem) (round : Int) (fuel : Nat)
    (e : Event) (rest : List Event) (L : Dict (List Nat)) (count : Nat)
    (acc : List (Nat × Event)) :
    processLoop hsem round (fuel + 1) ⟨e :: rest, L⟩ count acc =
      if (process_event hsem ⟨rest, L⟩ e round).raised then
        some ⟨(process_event hsem ⟨rest, L⟩ e round).em,
              acc ++ (process_event hsem ⟨rest, L⟩ e round).trace,
              true, count⟩
      else
        processLoop hsem round fuel (process_event hsem ⟨rest, L⟩ e round).em
          (count + 1) (acc ++ (process_event hsem ⟨rest, L⟩ e round).trace) :=
  rfl

theorem process_event_all_ok (hsem : HSem) (round : Int)
    (hok : ∀ h e r, hsem h e r = HandlerAct.ok []) (em : EventManager)
    (event : Event) :
    process_event hsem em event round =
      ⟨em, ((dictLookup em.listeners event.type).getD []).map
        (fun h => (h, event)), false⟩ := by
  unfold process_event
  cases hl : dictLookup em.listeners event.type with
  | none => simp
  | some l => simp [runHandlers_ok_nil hsem round event hok l em]

theorem processLoop_all_ok (hsem : HSem) (round : Int)
    (hok : ∀ h e r, hsem h e r = HandlerAct.ok []) :
    ∀ (evs : List Event) (L : Dict (List Nat)) (count : Nat)
      (acc : List (Nat × Event)),
      ∃ tr, processLoop hsem round evs.length ⟨evs, L⟩ count acc =
        some ⟨⟨[], L⟩, tr, false, count + evs.length⟩ := by
  intro evs
  induction evs with
  | nil =>
      intro L count acc
      exact ⟨acc, by rw [processLoop_eq_nil]; rfl⟩
  | cons e rest ih =>
      intro L count acc
      have hpe := process_event_all_ok hsem round hok ⟨rest, L⟩ e
      obtain ⟨tr, htr⟩ := ih L (count + 1)
        (acc ++ ((dictLookup L e.type).getD []).map (fun h => (h, e)))
      have hstep : processLoop hsem round (rest.length + 1) ⟨e :: rest, L⟩
            count acc
          = processLoop hsem round rest.length ⟨rest, L⟩ (count + 1)
              (acc ++ ((dictLookup L e.type).getD []).map (fun h => (h, e))) := by
        rw [processLoop_eq_succ, hpe]
        simp
      have harith : count + 1 + rest.length = count + (rest.length + 1) := by
        omega
      rw [harith] at htr
      refine ⟨tr, ?_⟩
      simp only [List.length_cons]
      rw [hstep]
      exact htr

/-- Shared no-op handler semantics: every processor returns normally
and enqueues nothing. -/
def hsemOk : HSem := fun _ _ _ => HandlerAct.ok []

/-- C1 (amended): `process_events` is not a snapshot drain — its
`while not empty` loop keeps dequeuing until the queue is empty, so a
call that returns normally always ends with an empty queue; events
enqueued by handlers during the call were themselves processed within
that same call, not left for the next one. -/
theorem process_round_drains_until_empty :
    ∀ (hsem : HSem) (round : Int) (fuel : Nat) (em : EventManager)
      (count : Nat) (acc : List (Nat × Event)) (r : PRResult),
      processLoop hsem round fuel em count acc = some r →
      r.raised = false → r.em.events = [] := by
  intro hsem round fuel
  induction fuel with
  | zero =>
      intro em count acc r h _
      obtain ⟨evs, L⟩ := em
      cases evs with
      | nil =>
          rw [processLoop_eq_nil] at h
          injection h with h'
          subst h'
          rfl
      | cons e rest =>
          rw [processLoop_eq_zero] at h
          exact Option.noConfusion h
  | succ fuel' ih =>
      intro em count acc r h hr
      obtain ⟨evs, L⟩ := em
      cases evs with
      | nil =>
          rw [processLoop_eq_nil] at h
          injection h with h'
          subst h'
          rfl
      | cons e rest =>
          rw [processLoop_eq_succ] at h
          cases hraised : (process_event hsem ⟨rest, L⟩ e round).raised with
          | true =>
              rw [hraised, if_pos rfl] at h
              injection h with h'
              subst h'
              simp at hr
          | false =>
              rw [hraised] at h
              simp only [Bool.false_eq_true, if_false] at h
              exact ih _ _ _ _ h hr

/-- Closed instance of `process_round_drains_until_empty`. -/
theorem process_round_drains_until_empty_witness :
    (⟨⟨[], []⟩, [], false, 1⟩ : PRResult).em.events = [] :=
  process_round_drains_until_empty hsemOk 0 1
    ⟨[Event.plain "WorldEnter" []], []⟩ 0 []
    ⟨⟨[], []⟩, [], false, 1⟩ rfl rfl

/-- Handler semantics for the C1 counterexample: processor 1 reacts to
its event by throwing a `MapChange`; every other processor does
nothing. -/
def hsemChain : HSem := fun h _ _ =>
  if h = 1 then HandlerAct.ok [Event.plain "MapChange" []]
  else HandlerAct.ok []

/-- Manager for the C1 counterexample: one queued `EntityMoved`,
processor 1 registered for `EntityMoved` and processor 2 for
`MapChange`. -/
def emChain : EventManager :=
  ⟨[Event.plain "EntityMoved" []],
   [("EntityMoved", [1]), ("MapChange", [2])]⟩

/-- C1 counterexample: the `MapChange` event that processor 1 enqueues
*during* `process_events` is dequeued and delivered to processor 2
within the very same call (it is in the trace of the call and the counter
is 2), and the queue is empty when the call returns — the claim says
it should not be delivered in this call and should remain queued for
the next drain. -/
theorem process_round_snapshot_counterexample :
    process_events hsemChain 2 emChain 0 =
      some ⟨⟨[], [("EntityMoved", [1]), ("MapChange", [2])]⟩,
            [(1, Event.plain "EntityMoved" []),
             (2, Event.plain "MapChange" [])],
            false, 2⟩ ∧
    Event.plain "MapChange" [] ∉ emChain.events := by
  refine ⟨rfl, ?_⟩
  decide

/-- C4: with handlers that neither raise nor enqueue, `process_events`
terminates with the queue drained, no exception, and returns exactly
the number of events that were queued when the call began — every
dequeued event is counted, also those whose type has no registered
listeners. -/
theorem process_round_counts_all_enqueued :
    ∀ (hsem : HSem) (round : Int) (em : EventManager),
      (∀ h e r, hsem h e r = HandlerAct.ok []) →
      (process_events hsem em.events.length em round).map
          (fun r => (r.em, r.raised, r.count)) =
        some (⟨[], em.listeners⟩, false, em.events.length) := by
  intro hsem round em hok
  obtain ⟨tr, htr⟩ := processLoop_all_ok hsem round hok em.events em.listeners 0 []
  rw [process_events]
  rw [show (⟨em.events, em.listeners⟩ : EventManager) = em from rfl] at htr
  rw [htr]
  simp

/-- Manager for the C4 witness: two queued events (one of them of a
type with no listener at all), one listener registered for a type that
never occurs. -/
def emCount : EventManager :=
  ⟨[Event.plain "WorldEnter" [], Event.base "SomeIdentifier" []],
   [("KeyPressed", [5])]⟩

/-- Closed instance of `process_round_counts_all_enqueued`: two events
enqueued, count 2 returned, although neither event has a listener. -/
theorem process_round_counts_all_enqueued_witness :
    (process_events hsemOk 2 emCount 0).map
        (fun r => (r.em, r.raised, r.count)) =
      some (⟨[], [("KeyPressed", [5])]⟩, false, 2) := by
  have h := process_round_counts_all_enqueued hsemOk 0 emCount
    (fun _ _ _ => rfl)
  simpa [emCount] using h

/-- C5: when `process_event` of the front event raises, the exception
propagates out of `process_events`: the loop stops at once with the
partial state, the counter is not advanced past the events already
done, and every invocation that happened while the faulting event was
being handled was an invocation for that event — no event after the
faulting one in the batch is delivered during the call. -/
theorem handler_fault_propagates :
    ∀ (hsem : HSem) (round : Int) (fuel : Nat) (e : Event)
      (rest : List Event) (L : Dict (List Nat)) (count : Nat)
      (acc : List (Nat × Event)),
      (process_event hsem ⟨rest, L⟩ e round).raised = true →
      processLoop hsem round (fuel + 1) ⟨e :: rest, L⟩ count acc =
        some ⟨(process_event hsem ⟨rest, L⟩ e round).em,
              acc ++ (process_event hsem ⟨rest, L⟩ e round).trace,
              true, count⟩ ∧
      ∀ p ∈ (process_event hsem ⟨rest, L⟩ e round).trace, p.2 = e := by
  intro hsem round fuel e rest L count acc hraised
  constructor
  · rw [processLoop_eq_succ, if_pos hraised]
  · exact process_event_trace_snd hsem ⟨rest, L⟩ e round

/-- Handler semantics for the C5 witness: every invocation raises. -/
def hsemRaise : HSem := fun _ _ _ => HandlerAct.raise

/-- Manager for the C5 witness: two queued events, processor 3
registered for the type of the first one. -/
def emFault : EventManager :=
  ⟨[Event.plain "MenuOpen" [], Event.plain "MapChange" []],
   [("MenuOpen", [3])]⟩

/-- Closed instance of `handler_fault_propagates`: processor 3 raises
on the first event, the call aborts with the second event still
queued and a count of 0. -/
theorem handler_fault_propagates_witness :
    processLoop hsemRaise 0 1 emFault 0 [] =
      some ⟨⟨[Event.plain "MapChange" []], [("MenuOpen", [3])]⟩,
            [(3, Event.plain "MenuOpen" [])], true, 0⟩ :=
  (handler_fault_propagates hsemRaise 0 0 (Event.plain "MenuOpen" [])
    [Event.plain "MapChange" []] [("MenuOpen", [3])] 0 [] rfl).1

/-- C3: (i) `register_listener` appends to the list registered for the
type, so the list order is the registration order; (ii) for an event
whose handlers do not raise, `process_event` invokes exactly the
processors registered for `event.type()`, once per registration, in
list order — earlier registrations begin before later ones — and a
processor never appears in the trace of an event of a type it is not
registered for. -/
theorem dispatch_registration_order :
    (∀ (em : EventManager) (K : String) (H : Nat),
        dictLookup (register_listener em K H).listeners K =
          some ((dictLookup em.listeners K).getD [] ++ [H])) ∧
    (∀ (hsem : HSem) (em : EventManager) (event : Event) (round : Int),
        (∀ h, hsem h event round ≠ HandlerAct.raise) →
        (process_event hsem em event round).trace =
          ((dictLookup em.listeners event.type).getD []).map
            (fun h => (h, event))) := by
  constructor
  · intro em K H
    unfold register_listener
    cases hl : dictLookup em.listeners K with
    | some l => exact dictLookup_dictSet_self _ _ _
    | none => exact dictLookup_dictSet_self _ _ _
  · intro hsem em event round hnr
    unfold process_event
    cases hl : dictLookup em.listeners event.type with
    | none => rfl
    | some l =>
        exact runHandlers_trace_of_no_raise hsem round event l em
          (fun h _ => hnr h)

/-- Closed instance of `dispatch_registration_order`: processors 4 and
6 registered for `KeyPressed` in that order are both invoked, in that
order, for a `KeyPressed` event. -/
theorem dispatch_registration_order_witness :
    (process_event hsemOk ⟨[], [("KeyPressed", [4, 6])]⟩
        (Event.plain "KeyPressed" []) 0).trace =
      [(4, Event.plain "KeyPressed" []), (6, Event.plain "KeyPressed" [])] := by
  rw [dispatch_registration_order.2 hsemOk ⟨[], [("KeyPressed", [4, 6])]⟩
    (Event.plain "KeyPressed" []) 0 (by intro h; simp [hsemOk])]
  rfl

/-! Listener removal -/

theorem remove_listener_lookup (em : EventManager) (K : String) (H : Nat)
    (l : List Nat) (h : dictLookup em.listeners K = some l) :
    dictLookup (remove_listener em K H).listeners K = some (l.erase H) := by
  unfold remove_listener
  rw [h]
  exact dictLookup_dictSet_self _ _ _

theorem remove_listener_no_key (em : EventManager) (K : String) (H : Nat)
    (h : dictLookup em.listeners K = none) : remove_listener em K H = em := by
  unfold remove_listener
  rw [h]

theorem remove_listener_absent (em : EventManager) (K : String) (H : Nat)
    (l : List Nat) (h : dictLookup em.listeners K = some l) (hH : H ∉ l) :
    remove_listener em K H = em := by
  unfold remove_listener
  rw [h]
  show { em with listeners := dictSet em.listeners K (l.erase H) } = em
  rw [List.erase_of_not_mem hH, dictSet_of_lookup_eq _ _ _ h]

theorem not_mem_erase_of_count_le_one {l : List Nat} {H : Nat}
    (hcount : l.count H ≤ 1) : H ∉ l.erase H := by
  have h0 : (l.erase H).count H = 0 := by
    rw [List.count_erase_self]
    omega
  exact List.count_eq_zero.mp h0

/-- C6: `remove_listener` (i) removes exactly the first occurrence of
the processor from the list for the type (later duplicates stay);
(ii) is a no-op when no list exists for the type; (iii) is a no-op
when the processor is not in the list; (iv) hence a second call on the
same pair is a no-op when the processor was registered at most once;
and (v) after such a removal `process_event` never invokes the removed
processor for an event of that type. -/
theorem remove_listener_first_occurrence :
    (∀ (em : EventManager) (K : String) (H : Nat) (l : List Nat),
        dictLookup em.listeners K = some l →
        dictLookup (remove_listener em K H).listeners K = some (l.erase H)) ∧
    (∀ (em : EventManager) (K : String) (H : Nat),
        dictLookup em.listeners K = none → remove_listener em K H = em) ∧
    (∀ (em : EventManager) (K : String) (H : Nat) (l : List Nat),
        dictLookup em.listeners K = some l → H ∉ l →
        remove_listener em K H = em) ∧
    (∀ (em : EventManager) (K : String) (H : Nat) (l : List Nat),
        dictLookup em.listeners K = some l → l.count H ≤ 1 →
        remove_listener (remove_listener em K H) K H =
          remove_listener em K H) ∧
    (∀ (hsem : HSem) (em : EventManager) (K : String) (H : Nat)
        (l : List Nat) (event : Event) (round : Int),
        dictLookup em.listeners K = some l → l.count H ≤ 1 →
        event.type = K →
        ∀ p ∈ (process_event hsem (remove_listener em K H) event round).trace,
          p.1 ≠ H) := by
  refine ⟨remove_listener_lookup, remove_listener_no_key,
    remove_listener_absent, ?_, ?_⟩
  · intro em K H l h hcount
    exact remove_listener_absent _ _ _ (l.erase H)
      (remove_listener_lookup em K H l h)
      (not_mem_erase_of_count_le_one hcount)
  · intro hsem em K H l event round h hcount htype p hp hpH
    have hmem := process_event_trace_fst_mem hsem (remove_listener em K H)
      event round p hp
    rw [htype, remove_listener_lookup em K H l h] at hmem
    exact not_mem_erase_of_count_le_one hcount (hpH ▸ hmem)

/-- Closed instance of `remove_listener_first_occurrence`: removing
processor 8 from the list `[8, 9, 8]` removes only the first
occurrence, leaving `[9, 8]`. -/
theorem remove_listener_first_occurrence_witness :
    dictLookup (remove_listener ⟨[], [("MoveAction", [8, 9, 8])]⟩
        "MoveAction" 8).listeners "MoveAction" = some [9, 8] := by
  rw [remove_listener_first_occurrence.1 ⟨[], [("MoveAction", [8, 9, 8])]⟩
    "MoveAction" 8 [8, 9, 8] rfl]
  rfl

/-! Dispatch of thrown events -/

/-- Manager for the C2 evaluation: the queue is empty and processor 7
is registered for the type `MoveAction`. -/
def emMove : EventManager := ⟨[], [("MoveAction", [7])]⟩

/-- C2 evaluated at the failing input: the event enqueued by
`throw('MoveAction', data)` reports `BaseEvent` — its class name — as
its type, not the identifier `MoveAction` it stores, so
`process_events` consumes it (count 1) without invoking processor 7,
the processor registered for `MoveAction` (empty trace); a processor
registered for the type `BaseEvent` would receive it instead. -/
theorem throw_identifier_not_dispatched :
    (Event.base "MoveAction" [("entity", 7), ("dx", -1), ("dy", 0)]).type
        = "BaseEvent" ∧
    process_events hsemOk 1
        (throw emMove "MoveAction" [("entity", 7), ("dx", -1), ("dy", 0)]) 0 =
      some ⟨⟨[], [("MoveAction", [7])]⟩, [], false, 1⟩ ∧
    process_events hsemOk 1
        (throw ⟨[], [("BaseEvent", [7])]⟩ "MoveAction"
          [("entity", 7), ("dx", -1), ("dy", 0)]) 0 =
      some ⟨⟨[], [("BaseEvent", [7])]⟩,
            [(7, Event.base "MoveAction" [("entity", 7), ("dx", -1), ("dy", 0)])],
            false, 1⟩ :=
  ⟨rfl, rfl, rfl⟩

/-! Behaviour update-loop lemmas -/

theorem update_mem_lookup {β : Type} (bm : BehaviourManager β)
    (get_all_of_type : String → List (Int × Int)) (round delta_time : Int)
    (hnd : (bm.behaviours.map Prod.fst).Nodup) :
    ∀ inv ∈ bm.update get_all_of_type round delta_time,
      dictLookup bm.behaviours inv.component_type = some inv.behaviour := by
  intro inv hinv
  unfold BehaviourManager.update at hinv
  rcases List.mem_flatMap.mp hinv with ⟨p, hp, hmem⟩
  rcases List.mem_map.mp hmem with ⟨q, _, heq⟩
  obtain ⟨pk, pv⟩ := p
  cases heq
  exact dictLookup_eq_of_mem hnd hp

theorem update_invokes {β : Type} (bm : BehaviourManager β)
    (get_all_of_type : String → List (Int × Int)) (round delta_time : Int)
    (ct : String) (b : β) (h : dictLookup bm.behaviours ct = some b) :
    ∀ q ∈ get_all_of_type ct,
      (⟨ct, b, q.1, q.2, round, delta_time⟩ : BInv β) ∈
        bm.update get_all_of_type round delta_time := by
  intro q hq
  unfold BehaviourManager.update
  exact List.mem_flatMap.mpr
    ⟨(ct, b), mem_of_dictLookup_eq h, List.mem_map.mpr ⟨q, hq, rfl⟩⟩

theorem update_filter_not_mem {β : Type}
    (get_all_of_type : String → List (Int × Int)) (round delta_time : Int)
    (ct : String) :
    ∀ (d : Dict β), ct ∉ d.map Prod.fst →
      List.filter (fun inv : BInv β => inv.component_type == ct)
        (d.flatMap fun p => (get_all_of_type p.1).map
          fun q => (⟨p.1, p.2, q.1, q.2, round, delta_time⟩ : BInv β)) = [] := by
  intro d
  induction d with
  | nil => intro _; rfl
  | cons p rest ih =>
      intro hct
      rw [List.map_cons, List.mem_cons] at hct
      push_neg at hct
      rw [List.flatMap_cons, List.filter_append, List.filter_map]
      rw [List.filter_eq_nil_iff.mpr
        (fun q _ => by simp [Function.comp, hct.1.symm]), List.map_nil,
        List.nil_append]
      exact ih hct.2

theorem update_filter_eq {β : Type}
    (get_all_of_type : String → List (Int × Int)) (round delta_time : Int)
    (ct : String) (b : β) :
    ∀ (d : Dict β), (d.map Prod.fst).Nodup → dictLookup d ct = some b →
      List.filter (fun inv : BInv β => inv.component_type == ct)
        (d.flatMap fun p => (get_all_of_type p.1).map
          fun q => (⟨p.1, p.2, q.1, q.2, round, delta_time⟩ : BInv β)) =
      (get_all_of_type ct).map
        fun q => (⟨ct, b, q.1, q.2, round, delta_time⟩ : BInv β) := by
  intro d
  induction d with
  | nil =>
      intro _ h
      simp [dictLookup] at h
  | cons p rest ih =>
      intro hnd h
      obtain ⟨pk, pv⟩ := p
      rw [List.map_cons, List.nodup_cons] at hnd
      rw [List.flatMap_cons, List.filter_append, List.filter_map]
      by_cases hk : pk = ct
      · subst hk
        have hb : pv = b := by simpa [dictLookup] using h
        subst hb
        rw [update_filter_not_mem get_all_of_type round delta_time pk rest
          hnd.1, List.append_nil]
        rw [List.filter_eq_self.mpr (fun q _ => by simp [Function.comp])]
      · have h' : dictLookup rest ct = some b := by
          simpa [dictLookup, hk] using h
        rw [List.filter_eq_nil_iff.mpr
          (fun q _ => by simp [Function.comp, hk]), List.map_nil,
          List.nil_append]
        exact ih hnd.2 h'

/-- C7: `add_component_behaviour` (called `bind` in the spec) keeps at most
one behaviour per component type: after `bind T B1; bind T B2` the
type `T` maps exactly to `B2`, other types are untouched, and the
update loop invokes only `B2` — never `B1` when they differ — for
entities with component type `T`, once per entity of that type. -/
theorem bind_replaces_previous_binding :
    ∀ (β : Type) (bm : BehaviourManager β) (T : String) (B1 B2 : β)
      (get_all_of_type : String → List (Int × Int)) (round delta_time : Int),
      dictLookup (add_component_behaviour
          (add_component_behaviour bm T B1) T B2).behaviours T = some B2 ∧
      (∀ T', T' ≠ T →
        dictLookup (add_component_behaviour
            (add_component_behaviour bm T B1) T B2).behaviours T' =
          dictLookup bm.behaviours T') ∧
      ((bm.behaviours.map Prod.fst).Nodup →
        ∀ inv ∈ (add_component_behaviour
            (add_component_behaviour bm T B1) T B2).update
              get_all_of_type round delta_time,
          inv.component_type = T → inv.behaviour = B2) ∧
      (∀ q ∈ get_all_of_type T,
        (⟨T, B2, q.1, q.2, round, delta_time⟩ : BInv β) ∈
          (add_component_behaviour
            (add_component_behaviour bm T B1) T B2).update
              get_all_of_type round delta_time) := by
  intro β bm T B1 B2 get_all_of_type round delta_time
  refine ⟨dictLookup_dictSet_self _ _ _, ?_, ?_, ?_⟩
  · intro T' hT'
    exact (dictLookup_dictSet_ne _ T T' B2 hT').trans
      (dictLookup_dictSet_ne _ T T' B1 hT')
  · intro hnd inv hinv hct
    have hnd2 : (((add_component_behaviour
        (add_component_behaviour bm T B1) T B2).behaviours).map
          Prod.fst).Nodup :=
      nodup_keys_dictSet _ _ _ (nodup_keys_dictSet _ _ _ hnd)
    have hl := update_mem_lookup _ get_all_of_type round delta_time hnd2
      inv hinv
    rw [hct] at hl
    have hself : dictLookup (add_component_behaviour
        (add_component_behaviour bm T B1) T B2).behaviours T = some B2 :=
      dictLookup_dictSet_self _ _ _
    rw [hself] at hl
    exact (Option.some.injEq _ _).mp hl.symm
  · exact update_invokes _ get_all_of_type round delta_time T B2
      (dictLookup_dictSet_self _ _ _)

/-- Closed instance of `bind_replaces_previous_binding`: binding 1
then 2 to `Input` leaves 2 bound. -/
theorem bind_replaces_previous_binding_witness :
    dictLookup (add_component_behaviour
        (add_component_behaviour (⟨[]⟩ : BehaviourManager Nat) "Input" 1)
        "Input" 2).behaviours "Input" = some 2 :=
  (bind_replaces_previous_binding Nat ⟨[]⟩ "Input" 1 2 (fun _ => []) 0 0).1

/-- C8: in one `update` call, for every component type in the
registry the bound behaviour is invoked exactly once per
`(entity, component)` pair returned by
`entity_manager.get_all_of_type` — the invocations for that type are
exactly the list of its pairs, in order — and every invocation that
happens belongs to a registered type with its bound behaviour, so no
behaviour runs for an unregistered type. -/
theorem update_once_per_entity_component :
    ∀ (β : Type) (bm : BehaviourManager β)
      (get_all_of_type : String → List (Int × Int)) (round delta_time : Int),
      (bm.behaviours.map Prod.fst).Nodup →
      ((∀ (ct : String) (b : β), dictLookup bm.behaviours ct = some b →
          List.filter (fun inv => inv.component_type == ct)
            (bm.update get_all_of_type round delta_time) =
            (get_all_of_type ct).map
              (fun q => ⟨ct, b, q.1, q.2, round, delta_time⟩)) ∧
       (∀ inv ∈ bm.update get_all_of_type round delta_time,
          dictLookup bm.behaviours inv.component_type =
            some inv.behaviour)) := by
  intro β bm get_all_of_type round delta_time hnd
  constructor
  · intro ct b h
    exact update_filter_eq get_all_of_type round delta_time ct b
      bm.behaviours hnd h
  · exact update_mem_lookup bm get_all_of_type round delta_time hnd

/-- Entity store for the C8 witness: entities 10 and 11 own an
`Input` component. -/
def demoStore : String → List (Int × Int) :=
  fun ct => if ct = "Input" then [(10, 0), (11, 0)] else []

/-- Closed instance of `update_once_per_entity_component`: with
behaviour 5 bound to `Input`, the `Input` invocations of one update
round are exactly one call per entity in the store. -/
theorem update_once_per_entity_component_witness :
    List.filter (fun inv => inv.component_type == "Input")
        ((⟨[("Input", 5)]⟩ : BehaviourManager Nat).update demoStore 3 1) =
      [⟨"Input", 5, 10, 0, 3, 1⟩, ⟨"Input", 5, 11, 0, 3, 1⟩] := by
  rw [(update_once_per_entity_component Nat ⟨[("Input", 5)]⟩ demoStore 3 1
    (by simp)).1 "Input" 5 rfl]
  rfl

/-- C9: for every component type and every name that does not resolve
to one of the behaviour classes of the `nightcaste.behaviour` module,
`add_comp_behaviour_from_name` raises at configuration time — the
`AttributeError` out of `getattr`, the failure the spec calls
`ConfigurationError`/`UnknownBehaviourError` — before anything is
bound, so the behaviour registry is left unchanged and the binding is
not silently skipped. -/
theorem unknown_behaviour_name_fails :
    ∀ (bm : BehaviourManager String) (component_type behaviour_name : String),
      behaviour_name ∉ behaviourModuleClassNames →
      add_comp_behaviour_from_name bm component_type behaviour_name =
        Except.error (PyError.attributeError behaviour_name) := by
  intro bm ct name h
  unfold add_comp_behaviour_from_name
  rw [if_neg h]

/-- Closed instance of `unknown_behaviour_name_fails`: the misspelled
name `InputBehavior` is no class of the module, so configuring it
fails with an exception instead of binding anything. -/
theorem unknown_behaviour_name_fails_witness :
    add_comp_behaviour_from_name ⟨[]⟩ "Input" "InputBehavior" =
      Except.error (PyError.attributeError "InputBehavior") :=
  unknown_behaviour_name_fails ⟨[]⟩ "Input" "InputBehavior" (by decide)

/-- C10: one `InputBehaviour.update` call enqueues at most one event:
nothing when no direction key is pressed, and exactly one `MoveAction`
chosen by the fixed `if/elif` priority left `(-1, 0)` over right
`(1, 0)` over down `(0, 1)` over up `(0, -1)` when several keys are
pressed at once. -/
theorem input_update_at_most_one_move :
    ∀ (is_pressed : Key → Bool) (em : EventManager) (entity : Int),
      (InputBehaviour.update is_pressed em entity).events.length ≤
        em.events.length + 1 ∧
      ((∀ k, is_pressed k = false) →
        InputBehaviour.update is_pressed em entity = em) ∧
      (is_pressed .k_left = true →
        (InputBehaviour.update is_pressed em entity).events =
          em.events ++ [Event.base "MoveAction"
            [("entity", entity), ("dx", -1), ("dy", 0)]]) ∧
      (is_pressed .k_left = false → is_pressed .k_right = true →
        (InputBehaviour.update is_pressed em entity).events =
          em.events ++ [Event.base "MoveAction"
            [("entity", entity), ("dx", 1), ("dy", 0)]]) ∧
      (is_pressed .k_left = false → is_pressed .k_right = false →
        is_pressed .k_down = true →
        (InputBehaviour.update is_pressed em entity).events =
          em.events ++ [Event.base "MoveAction"
            [("entity", entity), ("dx", 0), ("dy", 1)]]) ∧
      (is_pressed .k_left = false → is_pressed .k_right = false →
        is_pressed .k_down = false → is_pressed .k_up = true →
        (InputBehaviour.update is_pressed em entity).events =
          em.events ++ [Event.base "MoveAction"
            [("entity", entity), ("dx", 0), ("dy", -1)]]) := by
  intro p em entity
  refine ⟨?_, ?_, ?_, ?_, ?_, ?_⟩
  · unfold InputBehaviour.update InputBehaviour.move throw enqueue_event
    cases h1 : p .k_left <;> cases h2 : p .k_right <;>
      cases h3 : p .k_down <;> cases h4 : p .k_up <;>
      simp [h1, h2, h3, h4]
  · intro hall
    unfold InputBehaviour.update
    simp [hall]
  · intro h1
    unfold InputBehaviour.update InputBehaviour.move throw enqueue_event
    simp [h1]
  · intro h1 h2
    unfold InputBehaviour.update InputBehaviour.move throw enqueue_event
    simp [h1, h2]
  · intro h1 h2 h3
    unfold InputBehaviour.update InputBehaviour.move throw enqueue_event
    simp [h1, h2, h3]
  · intro h1 h2 h3 h4
    unfold InputBehaviour.update InputBehaviour.move throw enqueue_event
    simp [h1, h2, h3, h4]

/-- Input state for the C10 witness: every direction key pressed at
once. -/
def allKeysPressed : Key → Bool := fun _ => true

/-- Closed instance of `input_update_at_most_one_move`: with all four
keys pressed, exactly one `MoveAction` is thrown and it is the move
left. -/
theorem input_update_at_most_one_move_witness :
    (InputBehaviour.update allKeysPressed ⟨[], []⟩ 7).events =
      [Event.base "MoveAction" [("entity", 7), ("dx", -1), ("dy", 0)]] := by
  have h := (input_update_at_most_one_move allKeysPressed ⟨[], []⟩ 7).2.2.1 rfl
  simpa using h

end Nightcaste
